import Mathlib

/-!
Verification of the three analysis scripts of the Quant-finance-projects
repository against their specification.

Embedded source files:
* `01-trading-strategy-rsi-ema/rsi_ema_strategy.py` — buy-signal rule,
  ENTRY/EXIT columns, the trade-building loop and the trades report;
* `02-stock-screener-rsi-ema/stock_screener.py` — the per-symbol screen;
* `03-portfolio-risk-dashboard/portfolio_dashboard.py` — Sharpe computation
  and equity curves.

Dates are modelled as naturals (the scripts only compare and copy them),
prices and indicator values as rationals (the scripts' float arithmetic on
them is plain field arithmetic).
-/

/-- One post-warm-up row of the strategy dataframe, reduced to the fields the
trade loop reads: the date (index), the close, and the ENTRY/EXIT columns. -/
structure Bar where
  date : Nat
  close : Rat
  entryFlag : Bool
  exitFlag : Bool
deriving DecidableEq, Repr

/-- One record of `trades_list` (source lines 77–83 and 96–102):
`{EntryDate, ExitDate, EntryPrice, ExitPrice, RETURN%}`. -/
structure Trade where
  entryDate : Nat
  exitDate : Nat
  entryPrice : Rat
  exitPrice : Rat
  returnPct : Rat
deriving DecidableEq, Repr

/-- Builds the dict appended to `trades_list`:
`trade_return = (exit_price - entry_price) / entry_price * 100`. -/
def mkTrade (ed : Nat) (ep : Rat) (xd : Nat) (xp : Rat) : Trade :=
  { entryDate := ed, exitDate := xd, entryPrice := ep, exitPrice := xp,
    returnPct := (xp - ep) / ep * 100 }

/-- The mutable variables of the loop in section 5 of the strategy script:
`in_trade`, `entry_date`, `entry_price` (the latter two are `None` while no
trade is open). -/
structure LoopState where
  in_trade : Bool
  entry_date : Option Nat
  entry_price : Option Rat
deriving DecidableEq, Repr

/-- One iteration of the `for date, row in stock.iterrows()` loop.  The result
is `none` on the path where Python would raise (closing a trade while
`entry_date`/`entry_price` are `None`); the refinement lemma below shows this
path is unreachable from the initial state. -/
def loopStep (s : LoopState) (acc : List Trade) (b : Bar) :
    Option (LoopState × List Trade) :=
  if !s.in_trade && b.entryFlag then
    some ({ in_trade := true, entry_date := some b.date,
            entry_price := some b.close }, acc)
  else if s.in_trade && b.exitFlag then
    match s.entry_date, s.entry_price with
    | some ed, some ep =>
        some ({ in_trade := false, entry_date := none, entry_price := none },
              acc ++ [mkTrade ed ep b.date b.close])
    | _, _ => none
  else
    some (s, acc)

/-- The whole loop of section 5, folding `loopStep` over the bars. -/
def runLoop : LoopState → List Trade → List Bar → Option (LoopState × List Trade)
  | s, acc, [] => some (s, acc)
  | s, acc, b :: bs =>
      match loopStep s acc b with
      | none => none
      | some (s', acc') => runLoop s' acc' bs

/-- The source's `trades_list` as built by the script: run the loop from
`in_trade = False`, `entry_price = entry_date = None`, then, if a trade is
still open, force-close it at the last bar (`stock.index[-1]`,
`stock["Close"].iloc[-1]`). -/
def tradesList (bars : List Bar) : Option (List Trade) :=
  match runLoop ⟨false, none, none⟩ [] bars with
  | none => none
  | some (s, acc) =>
      if s.in_trade then
        match s.entry_date, s.entry_price, bars.getLast? with
        | some ed, some ep, some lb => some (acc ++ [mkTrade ed ep lb.date lb.close])
        | _, _, _ => none
      else
        some acc

/-! ### The specification's two-state tracker (spec §4.3)

Written from the spec's words: states `Flat` and `InTrade` (the latter
carrying the stored entry), entry on `entryFlag` while `Flat`, emission on
`exitFlag` while `InTrade`, nothing otherwise, forced exit at the last bar's
close if still `InTrade` when the input is exhausted. -/

inductive TrackerState where
  | Flat : TrackerState
  | InTrade (entryDate : Nat) (entryPrice : Rat) : TrackerState
deriving DecidableEq, Repr

/-- One transition of the spec's state machine. -/
def specStep : TrackerState → Bar → TrackerState × List Trade
  | .Flat, b =>
      if b.entryFlag then (.InTrade b.date b.close, []) else (.Flat, [])
  | .InTrade ed ep, b =>
      if b.exitFlag then (.Flat, [mkTrade ed ep b.date b.close])
      else (.InTrade ed ep, [])

/-- Scanning the bar sequence with `specStep`, collecting emitted trades. -/
def specScan : TrackerState → List Bar → TrackerState × List Trade
  | st, [] => (st, [])
  | st, b :: bs =>
      let p := specStep st b
      let q := specScan p.1 bs
      (q.1, p.2 ++ q.2)

/-- The spec's tracker: scan from `Flat`, then force-close at the last bar if
still `InTrade`. -/
def specTracker (bars : List Bar) : List Trade :=
  match (specScan .Flat bars).1, bars.getLast? with
  | .InTrade ed ep, some lb =>
      (specScan .Flat bars).2 ++ [mkTrade ed ep lb.date lb.close]
  | _, _ => (specScan .Flat bars).2

/-- Correspondence between a spec state and the loop's mutable variables:
in the source, `in_trade` is `True` exactly while `entry_date`/`entry_price`
hold values. -/
def reprState : TrackerState → LoopState
  | .Flat => ⟨false, none, none⟩
  | .InTrade ed ep => ⟨true, some ed, some ep⟩

/-! ### Signal columns (strategy script, sections 3–4) -/

/-- One post-warm-up row of the strategy dataframe's indicator columns. -/
structure IndicatorRow where
  close : Rat
  rsi : Rat
  ema20 : Rat
  ema50 : Rat
deriving DecidableEq, Repr

/-- Source line 49: `BUYSIGNAL = (EMA_20 > EMA_50) & (RSI > 55)`. -/
def BUYSIGNAL (r : IndicatorRow) : Bool :=
  decide (r.ema20 > r.ema50) && decide (r.rsi > 55)

/-- The column `BUYSIGNAL.shift(1)` read at row `i`; `none` models the NaN in row 0. -/
def shiftBuy (buy : List Bool) (i : Nat) : Option Bool :=
  if i = 0 then none else buy[i - 1]?

/-- The ENTRY column at row `i`: `(shift == False) & (col == True)`.  The
elementwise comparison of the row-0 NaN with `False` is `False`. -/
def ENTRY (buy : List Bool) (i : Nat) : Bool :=
  (shiftBuy buy i == some false) && (buy.getD i false == true)

/-- The EXIT column at row `i`: `(shift == True) & (col == False)`. -/
def EXIT (buy : List Bool) (i : Nat) : Bool :=
  (shiftBuy buy i == some true) && (buy.getD i false == false)

/-- Builds the rows the trade loop consumes, one per signal row, carrying the
previous `BUYSIGNAL` value (the shifted column; `none` before the first row).
Each row's flags are the ENTRY/EXIT comparisons of section 4 of the script;
`barsFrom_getElem?` below identifies them with `ENTRY`/`EXIT`. -/
def barsFrom (prev : Option Bool) : List Bool → List Nat → List Rat → List Bar
  | b :: bs, d :: ds, c :: cs =>
      ⟨d, c, (prev == some false) && (b == true), (prev == some true) && (b == false)⟩
        :: barsFrom (some b) bs ds cs
  | _, _, _ => []

/-- The signal series handed to the trade loop: date, close, ENTRY, EXIT per
row, with the shift starting from the NaN. -/
def signalBars (buy : List Bool) (dates : List Nat) (closes : List Rat) : List Bar :=
  barsFrom none buy dates closes

/-- The last BUYSIGNAL value after scanning `buy`, seen from a shift register
already holding `prev`. -/
def lastOr (prev : Option Bool) (buy : List Bool) : Option Bool :=
  match buy.getLast? with
  | some b => some b
  | none => prev

/-! ### Script 2: the screener's per-symbol conditions (source lines 50–64) -/

/-- The fields the screener reads from the most recent indicator row
(`last = data.iloc[-1]`). -/
structure LastRow where
  close : Rat
  ema20 : Rat
  ema50 : Rat
  rsi14 : Rat
deriving DecidableEq, Repr

/-- Screener condition `uptrend = ema20 > ema50`. -/
def uptrend (r : LastRow) : Bool := decide (r.ema20 > r.ema50)

/-- Screener condition `price_above_ema20 = close > ema20`. -/
def price_above_ema20 (r : LastRow) : Bool := decide (r.close > r.ema20)

/-- Momentum filter `rsi_ok = (rsi14 > 50) & (rsi14 < 70)`. -/
def rsi_ok (r : LastRow) : Bool := decide (r.rsi14 > 50) && decide (r.rsi14 < 70)

/-- Screen verdict `passes_screen = uptrend and price_above_ema20 and rsi_ok`. -/
def passes_screen (r : LastRow) : Bool :=
  uptrend r && price_above_ema20 r && rsi_ok r

/-! ### Script 1, section 6: the trades report -/

/-- What section 6 prints: either the no-trades message, or the trade count,
the mean return per trade and the total return. -/
inductive TradesReport where
  | noTrades : TradesReport
  | stats (totalTrades : Nat) (avgReturn : Rat) (sumReturn : Rat) : TradesReport
deriving DecidableEq, Repr

/-- Pandas `Series.mean()`: sum over length. -/
def listMean (xs : List Rat) : Rat := xs.sum / (xs.length : Rat)

/-- Section 6 of the strategy script: `if trades.empty` print the no-trades
message, `else` print the table plus `len(trades)`, `RETURN%.mean()` and
`RETURN%.sum()`. -/
def tradesReport (ts : List Trade) : TradesReport :=
  if ts.isEmpty then .noTrades
  else .stats ts.length (listMean (ts.map Trade.returnPct))
    ((ts.map Trade.returnPct).sum)

/-! ### Script 3: per-stock Sharpe (source lines 104–133) -/

/-- Script parameter `RISK_FREE_RATE = 0.0`. -/
def RISK_FREE_RATE : Rat := 0

/-- Source: `daily_rf = (1 + RISK_FREE_RATE) ** (1/252) - 1`; with the script's
`RISK_FREE_RATE = 0.0` this is `1 ** (1/252) - 1 = 0`. -/
def daily_rf : Rat := 0

/-- The square of `ret_series.std()`: the sample variance with the pandas
default `ddof = 1`. -/
def sampleVar (xs : List Rat) : Rat :=
  (xs.map (fun x => (x - listMean xs) ^ 2)).sum / ((xs.length : Rat) - 1)

/-- Source: `daily_vol = ret_series.std()`, parametric in the square-root function
(a square root is not rational; the theorems below only assume `sq 0 = 0`).
`none` models the NaN pandas returns for fewer than two observations. -/
def dailyVolOpt (sq : Rat → Rat) (xs : List Rat) : Option Rat :=
  if 2 ≤ xs.length then some (sq (sampleVar xs)) else none

/-- Source: `sharpe = np.nan`, then `if daily_vol != 0: sharpe = (avg_daily_ret -
daily_rf) / daily_vol * np.sqrt(252)`.  `none` is the NaN sentinel; it also
covers the case of a NaN `daily_vol` (the comparison `NaN != 0` is `True`
but the division then yields NaN again). -/
def sharpe (sq : Rat → Rat) (rets : List Rat) : Option Rat :=
  match dailyVolOpt sq rets with
  | none => none
  | some vol =>
      if vol ≠ 0 then some ((listMean rets - daily_rf) / vol * sq 252)
      else none

/-! ### Script 3: daily returns and equity curves (source lines 96 and 142) -/

/-- The forward-fill step of `pct_change`: a present price replaces the
carried one, a missing price keeps it. -/
def padVal (prev p : Option Rat) : Option Rat :=
  match p with
  | some v => some v
  | none => prev

/-- One `pct_change` value from the previous and current padded prices;
`none` is the NaN produced when either is missing. -/
def retOf (prev cur : Option Rat) : Option Rat :=
  match prev, cur with
  | some a, some b => some (b / a - 1)
  | _, _ => none

/-- Pandas `price_df.pct_change()` with its default forward-fill of missing
prices before differencing: `prev` carries the last price seen (the padded
value), `none` a missing price or NaN return. -/
def pctFrom (prev : Option Rat) : List (Option Rat) → List (Option Rat)
  | [] => []
  | p :: rest => retOf prev (padVal prev p) :: pctFrom (padVal prev p) rest

/-- Source: `returns_df = price_df.pct_change()` for one symbol's column. -/
def pctChange (prices : List (Option Rat)) : List (Option Rat) :=
  pctFrom none prices

/-- Source: `returns_df.fillna(0)`. -/
def fillnaZero (rets : List (Option Rat)) : List Rat :=
  rets.map (fun r => r.getD 0)

/-- Pandas `.cumprod()` of a factor list, with running product `acc`. -/
def cumprodFrom (acc : Rat) : List Rat → List Rat
  | [] => []
  | x :: rest => (acc * x) :: cumprodFrom (acc * x) rest

/-- Source line 142: `equity_df = (1 + returns_df.fillna(0)).cumprod()`,
one symbol's column over the full combined date index. -/
def equityCurve (prices : List (Option Rat)) : List Rat :=
  cumprodFrom 1 ((fillnaZero (pctChange prices)).map (fun r => 1 + r))

/-! ### RSI, modelled from the spec

Both scripts compute RSI with the external `pandas_ta.rsi`; that code is not
part of this repository.  Modelled from the spec (§4.1): average gain and
average loss over the trailing window, seeded with a plain average and then
Wilder-smoothed (`a' = (a*(n-1) + x)/n`); `RSI = 100 - 100/(1 + RS)` with
`RS = avgGain/avgLoss`, mapped to 100 when the average loss is zero. -/

/-- Modelled from the spec: consecutive close-to-close differences. -/
def diffs : List Rat → List Rat
  | a :: b :: rest => (b - a) :: diffs (b :: rest)
  | _ => []

/-- Modelled from the spec: the gain part of a price change. -/
def gainOf (d : Rat) : Rat := max d 0

/-- Modelled from the spec: the loss part of a price change. -/
def lossOf (d : Rat) : Rat := max (-d) 0

/-- Modelled from the spec: Wilder smoothing after the seed average. -/
def wilderFrom (n : Nat) (a : Rat) : List Rat → List Rat
  | [] => []
  | x :: rest =>
      let a' := (a * ((n : Rat) - 1) + x) / (n : Rat)
      a' :: wilderFrom n a' rest

/-- Modelled from the spec: the sequence of Wilder averages of `xs`, starting
once the `n`-window is fully populated. -/
def wilderAvgs (n : Nat) (xs : List Rat) : List Rat :=
  if n ≠ 0 ∧ n ≤ xs.length then
    ((xs.take n).sum / (n : Rat)) ::
      wilderFrom n ((xs.take n).sum / (n : Rat)) (xs.drop n)
  else []

/-- Modelled from the spec: RSI from one average-gain/average-loss pair;
division by zero (no losses) maps to 100. -/
def rsiOf (ag al : Rat) : Rat :=
  if al = 0 then 100 else 100 - 100 / (1 + ag / al)

/-- Modelled from the spec: the RSI(n) series of a close series, one value
per fully warmed-up window. -/
def rsiSeq (n : Nat) (closes : List Rat) : List Rat :=
  List.zipWith rsiOf (wilderAvgs n ((diffs closes).map gainOf))
    (wilderAvgs n ((diffs closes).map lossOf))

/-! ### Theorems

First the refinement of the source loop by the spec's tracker, then the
structural lemmas about the scan and the signal construction, then one
theorem per claim (each marked with its claim id), with concrete witnesses
and counterexamples. -/

@[simp] theorem specScan_nil (st : TrackerState) : specScan st [] = (st, []) := rfl

theorem specScan_cons (st : TrackerState) (b : Bar) (bs : List Bar) :
    specScan st (b :: bs) =
      ((specScan (specStep st b).1 bs).1,
        (specStep st b).2 ++ (specScan (specStep st b).1 bs).2) := rfl

@[simp] theorem reprState_Flat : reprState .Flat = ⟨false, none, none⟩ := rfl

@[simp] theorem reprState_InTrade (ed : Nat) (ep : Rat) :
    reprState (.InTrade ed ep) = ⟨true, some ed, some ep⟩ := rfl

theorem runLoop_cons (s : LoopState) (acc : List Trade) (b : Bar) (bs : List Bar) :
    runLoop s acc (b :: bs) =
      match loopStep s acc b with
      | none => none
      | some (s', acc') => runLoop s' acc' bs := rfl

theorem runLoop_spec (bars : List Bar) :
    ∀ (st : TrackerState) (acc : List Trade),
      runLoop (reprState st) acc bars =
        some (reprState (specScan st bars).1, acc ++ (specScan st bars).2) := by
  induction bars with
  | nil => intro st acc; simp [runLoop]
  | cons b bs ih =>
      intro st acc
      cases st with
      | Flat =>
          cases hb : b.entryFlag with
          | true =>
              have hstep : loopStep (reprState .Flat) acc b =
                  some (reprState (.InTrade b.date b.close), acc) := by
                simp [loopStep, hb]
              rw [runLoop_cons, hstep]
              show runLoop (reprState (.InTrade b.date b.close)) acc bs = _
              rw [ih]
              simp [specScan_cons, specStep, hb]
          | false =>
              have hstep : loopStep (reprState .Flat) acc b =
                  some (reprState .Flat, acc) := by
                simp [loopStep, hb]
              rw [runLoop_cons, hstep]
              show runLoop (reprState .Flat) acc bs = _
              rw [ih]
              simp [specScan_cons, specStep, hb]
      | InTrade ed ep =>
          cases hb : b.exitFlag with
          | true =>
              have hstep : loopStep (reprState (.InTrade ed ep)) acc b =
                  some (reprState .Flat, acc ++ [mkTrade ed ep b.date b.close]) := by
                simp [loopStep, hb]
              rw [runLoop_cons, hstep]
              show runLoop (reprState .Flat) (acc ++ [mkTrade ed ep b.date b.close]) bs = _
              rw [ih]
              simp [specScan_cons, specStep, hb]
          | false =>
              have hstep : loopStep (reprState (.InTrade ed ep)) acc b =
                  some (reprState (.InTrade ed ep), acc) := by
                simp [loopStep, hb]
              rw [runLoop_cons, hstep]
              show runLoop (reprState (.InTrade ed ep)) acc bs = _
              rw [ih]
              simp [specScan_cons, specStep, hb]

/-- The source loop (with its forced close) never hits the crash path and
computes exactly the spec tracker's trade list. -/
theorem tradesList_spec (bars : List Bar) :
    tradesList bars = some (specTracker bars) := by
  have h := runLoop_spec bars .Flat []
  rw [reprState_Flat] at h
  unfold tradesList specTracker
  rw [h]
  simp only [List.nil_append]
  cases hst : (specScan .Flat bars).1 with
  | Flat => simp
  | InTrade ed ep =>
      cases hlast : bars.getLast? with
      | some lb => simp
      | none =>
          rw [List.getLast?_eq_none_iff] at hlast
          subst hlast
          simp at hst

theorem barsFrom_getElem? :
    ∀ (buy : List Bool) (dates : List Nat) (closes : List Rat)
      (prev : Option Bool) (i : Nat),
      i < buy.length → buy.length ≤ dates.length → buy.length ≤ closes.length →
      (barsFrom prev buy dates closes)[i]? =
        some ⟨dates.getD i 0, closes.getD i 0,
              ((if i = 0 then prev else buy[i - 1]?) == some false) &&
                (buy.getD i false == true),
              ((if i = 0 then prev else buy[i - 1]?) == some true) &&
                (buy.getD i false == false)⟩ := by
  intro buy
  induction buy with
  | nil => intro dates closes prev i hi _ _; simp at hi
  | cons b bs ih =>
      intro dates closes prev i hi hd hc
      cases dates with
      | nil => simp at hd
      | cons d ds =>
          cases closes with
          | nil => simp at hc
          | cons c cs =>
              cases i with
              | zero => simp [barsFrom]
              | succ j =>
                  have hj : j < bs.length := by simpa using hi
                  have hd' : bs.length ≤ ds.length := by simpa using hd
                  have hc' : bs.length ≤ cs.length := by simpa using hc
                  rw [show (barsFrom prev (b :: bs) (d :: ds) (c :: cs)) =
                      ⟨d, c, (prev == some false) && (b == true),
                        (prev == some true) && (b == false)⟩ ::
                        barsFrom (some b) bs ds cs from rfl]
                  rw [List.getElem?_cons_succ, ih ds cs (some b) j hj hd' hc']
                  cases j with
                  | zero => simp
                  | succ k => simp

/-- Every flag pair of `signalBars` is the `ENTRY`/`EXIT` pair at that row. -/
theorem signalBars_getElem? (buy : List Bool) (dates : List Nat) (closes : List Rat)
    (i : Nat) (hi : i < buy.length) (hd : buy.length ≤ dates.length)
    (hc : buy.length ≤ closes.length) :
    (signalBars buy dates closes)[i]? =
      some ⟨dates.getD i 0, closes.getD i 0, ENTRY buy i, EXIT buy i⟩ := by
  rw [signalBars, barsFrom_getElem? buy dates closes none i hi hd hc]
  simp only [ENTRY, EXIT, shiftBuy]

/-- Every trade emitted during the scan closes at a bar whose EXIT flag is
set, taking that bar's date and close. -/
theorem mem_specScan_out :
    ∀ (bars : List Bar) (st : TrackerState) (t : Trade),
      t ∈ (specScan st bars).2 →
      ∃ b ∈ bars, b.exitFlag = true ∧ t.exitDate = b.date ∧ t.exitPrice = b.close := by
  intro bars
  induction bars with
  | nil => intro st t ht; simp at ht
  | cons b bs ih =>
      intro st t ht
      rw [specScan_cons] at ht
      rcases List.mem_append.1 ht with h1 | h2
      · cases st with
        | Flat => cases hb : b.entryFlag <;> simp [specStep, hb] at h1
        | InTrade ed ep =>
            cases hb : b.exitFlag with
            | false => simp [specStep, hb] at h1
            | true =>
                simp [specStep, hb] at h1
                refine ⟨b, List.mem_cons_self b bs, hb, ?_, ?_⟩ <;> simp [h1, mkTrade]
      · obtain ⟨b', hb', hflag, hd, hp⟩ := ih (specStep st b).1 t h2
        exact ⟨b', List.mem_cons_of_mem b hb', hflag, hd, hp⟩

/-- In a date-sorted bar list every bar's date is at most the last one's. -/
theorem date_le_getLast :
    ∀ (bars : List Bar), List.Pairwise (fun a b => a.date < b.date) bars →
      ∀ lb, bars.getLast? = some lb → ∀ b ∈ bars, b.date ≤ lb.date := by
  intro bars
  induction bars with
  | nil => intro _ lb h; simp at h
  | cons x xs ih =>
      intro hp lb hlast b hb
      rcases List.pairwise_cons.1 hp with ⟨hx, hxs⟩
      cases xs with
      | nil =>
          have hlb : lb = x := by simpa using hlast.symm
          have hbx : b = x := by simpa using hb
          simp [hlb, hbx]
      | cons y ys =>
          rw [List.getLast?_cons_cons] at hlast
          rcases List.mem_cons.1 hb with rfl | hmem
          · exact le_of_lt (hx lb (List.mem_of_getLast?_eq_some hlast))
          · exact ih hxs lb hlast b hmem

/-- In a date-sorted bar list, a bar sharing the last bar's date is the last
bar. -/
theorem eq_getLast_of_date_eq :
    ∀ (bars : List Bar), List.Pairwise (fun a b => a.date < b.date) bars →
      ∀ lb, bars.getLast? = some lb → ∀ b ∈ bars, b.date = lb.date → b = lb := by
  intro bars
  induction bars with
  | nil => intro _ lb h; simp at h
  | cons x xs ih =>
      intro hp lb hlast b hb hdate
      rcases List.pairwise_cons.1 hp with ⟨hx, hxs⟩
      cases xs with
      | nil =>
          have hlb : lb = x := by simpa using hlast.symm
          have hbx : b = x := by simpa using hb
          simp [hlb, hbx]
      | cons y ys =>
          rw [List.getLast?_cons_cons] at hlast
          rcases List.mem_cons.1 hb with rfl | hmem
          · have := hx lb (List.mem_of_getLast?_eq_some hlast)
            omega
          · exact ih hxs lb hlast b hmem hdate

/-- Trades emitted from a state whose stored entry date is at most every
remaining bar's date satisfy `entryDate ≤ exitDate`; moreover a stored entry
in the final state was recorded at one of the scanned bars (unless it was
already stored at the start). -/
theorem specScan_entry_inv :
    ∀ (bars : List Bar) (st : TrackerState),
      List.Pairwise (fun a b => a.date < b.date) bars →
      (∀ ed ep, st = .InTrade ed ep → ∀ b ∈ bars, ed ≤ b.date) →
      (∀ t ∈ (specScan st bars).2, t.entryDate ≤ t.exitDate) ∧
      (∀ ed ep, (specScan st bars).1 = .InTrade ed ep →
        st = .InTrade ed ep ∨ ∃ b ∈ bars, ed = b.date) := by
  intro bars
  induction bars with
  | nil =>
      intro st _ _
      refine ⟨by intro t ht; simp at ht, ?_⟩
      intro ed ep h
      exact Or.inl (by simpa using h)
  | cons b bs ih =>
      intro st hp hst
      rcases List.pairwise_cons.1 hp with ⟨hb_lt, hp'⟩
      cases st with
      | Flat =>
          cases hb : b.entryFlag with
          | true =>
              have hstep : specStep .Flat b = (.InTrade b.date b.close, []) := by
                simp [specStep, hb]
              have hnext : ∀ ed ep,
                  (TrackerState.InTrade b.date b.close) = .InTrade ed ep →
                  ∀ b' ∈ bs, ed ≤ b'.date := by
                intro ed ep he b' hb'
                cases he
                exact le_of_lt (hb_lt b' hb')
              obtain ⟨ihA, ihB⟩ := ih (.InTrade b.date b.close) hp' hnext
              rw [specScan_cons, hstep]
              refine ⟨?_, ?_⟩
              · intro t ht
                simp only [List.nil_append] at ht
                exact ihA t ht
              · intro ed ep hfin
                rcases ihB ed ep hfin with heq | ⟨b', hb', hed⟩
                · cases heq
                  exact Or.inr ⟨b, List.mem_cons_self b bs, rfl⟩
                · exact Or.inr ⟨b', List.mem_cons_of_mem b hb', hed⟩
          | false =>
              have hstep : specStep .Flat b = (.Flat, []) := by
                simp [specStep, hb]
              have hnext : ∀ ed ep, (TrackerState.Flat) = .InTrade ed ep →
                  ∀ b' ∈ bs, ed ≤ b'.date := by
                intro ed ep he; cases he
              obtain ⟨ihA, ihB⟩ := ih .Flat hp' hnext
              rw [specScan_cons, hstep]
              refine ⟨?_, ?_⟩
              · intro t ht
                simp only [List.nil_append] at ht
                exact ihA t ht
              · intro ed ep hfin
                rcases ihB ed ep hfin with heq | ⟨b', hb', hed⟩
                · cases heq
                · exact Or.inr ⟨b', List.mem_cons_of_mem b hb', hed⟩
      | InTrade ed0 ep0 =>
          have hst0 : ∀ b' ∈ b :: bs, ed0 ≤ b'.date := hst ed0 ep0 rfl
          cases hb : b.exitFlag with
          | true =>
              have hstep : specStep (.InTrade ed0 ep0) b =
                  (.Flat, [mkTrade ed0 ep0 b.date b.close]) := by
                simp [specStep, hb]
              have hnext : ∀ ed ep, (TrackerState.Flat) = .InTrade ed ep →
                  ∀ b' ∈ bs, ed ≤ b'.date := by
                intro ed ep he; cases he
              obtain ⟨ihA, ihB⟩ := ih .Flat hp' hnext
              rw [specScan_cons, hstep]
              refine ⟨?_, ?_⟩
              · intro t ht
                rcases List.mem_append.1 ht with h1 | h2
                · have ht' : t = mkTrade ed0 ep0 b.date b.close := by simpa using h1
                  have : ed0 ≤ b.date := hst0 b (List.mem_cons_self b bs)
                  simp [ht', mkTrade, this]
                · exact ihA t h2
              · intro ed ep hfin
                rcases ihB ed ep hfin with heq | ⟨b', hb', hed⟩
                · cases heq
                · exact Or.inr ⟨b', List.mem_cons_of_mem b hb', hed⟩
          | false =>
              have hstep : specStep (.InTrade ed0 ep0) b = (.InTrade ed0 ep0, []) := by
                simp [specStep, hb]
              have hnext : ∀ ed ep, (TrackerState.InTrade ed0 ep0) = .InTrade ed ep →
                  ∀ b' ∈ bs, ed ≤ b'.date := by
                intro ed ep he b' hb'
                cases he
                exact hst0 b' (List.mem_cons_of_mem b hb')
              obtain ⟨ihA, ihB⟩ := ih (.InTrade ed0 ep0) hp' hnext
              rw [specScan_cons, hstep]
              refine ⟨?_, ?_⟩
              · intro t ht
                simp only [List.nil_append] at ht
                exact ihA t ht
              · intro ed ep hfin
                rcases ihB ed ep hfin with heq | ⟨b', hb', hed⟩
                · cases heq
                  exact Or.inl rfl
                · exact Or.inr ⟨b', List.mem_cons_of_mem b hb', hed⟩

theorem lastOr_cons (prev : Option Bool) (b : Bool) (bs : List Bool) :
    lastOr prev (b :: bs) = lastOr (some b) bs := by
  unfold lastOr
  cases bs with
  | nil => rfl
  | cons y ys =>
      rw [List.getLast?_cons_cons]
      cases h : (y :: ys).getLast? with
      | none => simp at h
      | some z => rfl

theorem exists_inTrade_stepFlat (b : Bar) :
    (∃ ed ep, (specStep .Flat b).1 = .InTrade ed ep) ↔ b.entryFlag = true := by
  cases hb : b.entryFlag <;> simp [specStep, hb]

theorem exists_inTrade_stepInTrade (ed0 : Nat) (ep0 : Rat) (b : Bar) :
    (∃ ed ep, (specStep (.InTrade ed0 ep0) b).1 = .InTrade ed ep) ↔
      b.exitFlag = false := by
  cases hb : b.exitFlag <;> simp [specStep, hb]

/-- State of the tracker after scanning a signal series: it is `InTrade`
exactly when the last signal is `true` and a `false` signal has been seen.
`prev` is the shift register, `saw` records whether a `false` value was
already seen before this suffix. -/
theorem scan_state_aux :
    ∀ (buy : List Bool) (dates : List Nat) (closes : List Rat)
      (prev : Option Bool) (saw : Bool) (st : TrackerState),
      buy.length ≤ dates.length → buy.length ≤ closes.length →
      ((∃ ed ep, st = .InTrade ed ep) ↔ (prev = some true ∧ saw = true)) →
      (prev = some false → saw = true) →
      (prev = none → saw = false) →
      ((∃ ed ep, (specScan st (barsFrom prev buy dates closes)).1 = .InTrade ed ep) ↔
        (lastOr prev buy = some true ∧ (saw || buy.any (fun x => !x)) = true)) := by
  intro buy
  induction buy with
  | nil =>
      intro dates closes prev saw st _ _ hiff _ _
      show (∃ ed ep, (specScan st []).1 = .InTrade ed ep) ↔ _
      simpa [lastOr] using hiff
  | cons b bs ih =>
      intro dates closes prev saw st hd hc hiff h2 h3
      cases dates with
      | nil => simp at hd
      | cons d ds =>
          cases closes with
          | nil => simp at hc
          | cons c cs =>
              have hd' : bs.length ≤ ds.length := by simpa using hd
              have hc' : bs.length ≤ cs.length := by simpa using hc
              have hbars : barsFrom prev (b :: bs) (d :: ds) (c :: cs) =
                  (⟨d, c, (prev == some false) && (b == true),
                    (prev == some true) && (b == false)⟩ : Bar)
                    :: barsFrom (some b) bs ds cs := rfl
              rw [hbars, specScan_cons]
              have hiff' : (∃ ed ep,
                  (specStep st ⟨d, c, (prev == some false) && (b == true),
                    (prev == some true) && (b == false)⟩).1 = .InTrade ed ep) ↔
                  (some b = some true ∧ (saw || !b) = true) := by
                cases st with
                | Flat =>
                    have hni : ¬(prev = some true ∧ saw = true) := by
                      intro hcon
                      exact absurd (hiff.2 hcon) (by simp)
                    rw [exists_inTrade_stepFlat]
                    cases prev with
                    | none =>
                        have hs : saw = false := h3 rfl
                        cases b <;> simp [hs]
                    | some p =>
                        cases p with
                        | false =>
                            have hs : saw = true := h2 rfl
                            cases b <;> simp [hs]
                        | true =>
                            have hs : saw = false := by
                              cases hsaw : saw with
                              | true => exact absurd ⟨rfl, hsaw⟩ hni
                              | false => rfl
                            cases b <;> simp [hs]
                | InTrade ed0 ep0 =>
                    obtain ⟨hprev, hsaw⟩ := hiff.1 ⟨ed0, ep0, rfl⟩
                    rw [exists_inTrade_stepInTrade]
                    subst hprev
                    cases b <;> simp [hsaw]
              have h2' : some b = some false → (saw || !b) = true := by
                intro h
                have : b = false := by simpa using h
                simp [this]
              have h3' : (some b : Option Bool) = none → (saw || !b) = false := by
                intro h; cases h
              have key := ih ds cs (some b) (saw || !b)
                (specStep st ⟨d, c, (prev == some false) && (b == true),
                  (prev == some true) && (b == false)⟩).1 hd' hc' hiff' h2' h3'
              rw [key, lastOr_cons]
              simp [Bool.or_assoc]

theorem barsFrom_date_mem :
    ∀ (buy : List Bool) (dates : List Nat) (closes : List Rat) (prev : Option Bool)
      (b : Bar), b ∈ barsFrom prev buy dates closes → b.date ∈ dates := by
  intro buy
  induction buy with
  | nil => intro dates closes prev b hb; simp [barsFrom] at hb
  | cons x xs ih =>
      intro dates closes prev b hb
      cases dates with
      | nil => simp [barsFrom] at hb
      | cons d ds =>
          cases closes with
          | nil => simp [barsFrom] at hb
          | cons c cs =>
              rcases List.mem_cons.1 hb with rfl | hmem
              · exact List.mem_cons_self d ds
              · exact List.mem_cons_of_mem d (ih ds cs (some x) b hmem)

/-- A strictly increasing date index yields date-sorted signal bars. -/
theorem barsFrom_sorted :
    ∀ (buy : List Bool) (dates : List Nat) (closes : List Rat) (prev : Option Bool),
      List.Pairwise (· < ·) dates →
      List.Pairwise (fun a b : Bar => a.date < b.date)
        (barsFrom prev buy dates closes) := by
  intro buy
  induction buy with
  | nil => intro dates closes prev _; simp [barsFrom]
  | cons x xs ih =>
      intro dates closes prev hp
      cases dates with
      | nil => simp [barsFrom]
      | cons d ds =>
          cases closes with
          | nil => simp [barsFrom]
          | cons c cs =>
              rcases List.pairwise_cons.1 hp with ⟨hd, hp'⟩
              refine List.pairwise_cons.2 ⟨?_, ih ds cs (some x) hp'⟩
              intro b hb
              exact hd b.date (barsFrom_date_mem xs ds cs (some x) b hb)

/-- When the last BUYSIGNAL value is `true`, the last signal bar carries no
EXIT flag (a `true → false` transition cannot end at it). -/
theorem barsFrom_getLast_exitFlag :
    ∀ (buy : List Bool) (dates : List Nat) (closes : List Rat) (prev : Option Bool),
      buy.length ≤ dates.length → buy.length ≤ closes.length →
      buy.getLast? = some true →
      ∀ lb, (barsFrom prev buy dates closes).getLast? = some lb →
        lb.exitFlag = false := by
  intro buy
  induction buy with
  | nil => intro _ _ _ _ _ h; simp at h
  | cons b bs ih =>
      intro dates closes prev hd hc hlast lb hlb
      cases dates with
      | nil => simp at hd
      | cons d ds =>
          cases closes with
          | nil => simp at hc
          | cons c cs =>
              cases bs with
              | nil =>
                  have hb : b = true := by simpa using hlast
                  subst hb
                  have hlb' : lb = (⟨d, c, (prev == some false) && (true == true),
                      (prev == some true) && (true == false)⟩ : Bar) := by
                    simpa [barsFrom] using hlb.symm
                  simp [hlb']
              | cons b' bs' =>
                  cases ds with
                  | nil => simp at hd
                  | cons d' ds' =>
                      cases cs with
                      | nil => simp at hc
                      | cons c' cs' =>
                          have hd' : (b' :: bs').length ≤ (d' :: ds').length := by
                            simpa using hd
                          have hc' : (b' :: bs').length ≤ (c' :: cs').length := by
                            simpa using hc
                          have hlast' : (b' :: bs').getLast? = some true := by
                            rw [List.getLast?_cons_cons] at hlast
                            exact hlast
                          have hlb' : (barsFrom (some b) (b' :: bs') (d' :: ds')
                              (c' :: cs')).getLast? = some lb := by
                            have hshape : barsFrom prev (b :: b' :: bs') (d :: d' :: ds')
                                (c :: c' :: cs') =
                                (⟨d, c, (prev == some false) && (b == true),
                                  (prev == some true) && (b == false)⟩ : Bar) ::
                                (⟨d', c', (some b == some false) && (b' == true),
                                  (some b == some true) && (b' == false)⟩ : Bar) ::
                                barsFrom (some b') bs' ds' cs' := rfl
                            rw [hshape, List.getLast?_cons_cons] at hlb
                            exact hlb
                          exact ih (d' :: ds') (c' :: cs') (some b) hd' hc' hlast' lb hlb'

/-- A signal series that is never `true` sets no ENTRY flag. -/
theorem barsFrom_entryFlag_false :
    ∀ (buy : List Bool) (dates : List Nat) (closes : List Rat) (prev : Option Bool),
      (∀ x ∈ buy, x = false) →
      ∀ bar ∈ barsFrom prev buy dates closes, bar.entryFlag = false := by
  intro buy
  induction buy with
  | nil => intro dates closes prev _ bar hbar; simp [barsFrom] at hbar
  | cons x xs ih =>
      intro dates closes prev hall bar hbar
      cases dates with
      | nil => simp [barsFrom] at hbar
      | cons d ds =>
          cases closes with
          | nil => simp [barsFrom] at hbar
          | cons c cs =>
              rcases List.mem_cons.1 hbar with rfl | hmem
              · have hx : x = false := hall x (List.mem_cons_self x xs)
                simp [hx]
              · exact ih ds cs (some x)
                  (fun y hy => hall y (List.mem_cons_of_mem x hy)) bar hmem

/-- With no ENTRY flag anywhere the scan stays `Flat` and emits nothing. -/
theorem specScan_no_entry :
    ∀ (bars : List Bar), (∀ b ∈ bars, b.entryFlag = false) →
      specScan .Flat bars = (.Flat, []) := by
  intro bars
  induction bars with
  | nil => simp
  | cons b bs ih =>
      intro hall
      have hb : b.entryFlag = false := hall b (List.mem_cons_self b bs)
      have hstep : specStep .Flat b = (.Flat, []) := by simp [specStep, hb]
      rw [specScan_cons, hstep, ih (fun y hy => hall y (List.mem_cons_of_mem b hy))]
      rfl

/-- Reduction of `specTracker` when the scan ends `Flat`. -/
theorem specTracker_eq_flat (bars : List Bar)
    (h : (specScan .Flat bars).1 = .Flat) :
    specTracker bars = (specScan .Flat bars).2 := by
  unfold specTracker
  rw [h]

/-- Reduction of `specTracker` when the scan ends `InTrade`. -/
theorem specTracker_eq_inTrade (bars : List Bar) (ed : Nat) (ep : Rat) (lb : Bar)
    (h1 : (specScan .Flat bars).1 = .InTrade ed ep)
    (h2 : bars.getLast? = some lb) :
    specTracker bars = (specScan .Flat bars).2 ++ [mkTrade ed ep lb.date lb.close] := by
  unfold specTracker
  rw [h1, h2]

/-- C1: scanning the post-warm-up bars in date order from `Flat` with no
stored entry, the source's trade loop enters on an ENTRY flag while flat
(storing the bar's date and close), appends on an EXIT flag while in a trade
the record `{entryDate, entryPrice, exitDate, exitPrice, returnPct =
(exitPrice-entryPrice)/entryPrice*100}` and clears the entry, changes
nothing on any other bar, and if still in a trade after the last bar appends
one final trade at the last bar's date and close with the same formula —
i.e. it computes exactly the specification's two-state tracker. -/
theorem claim_c1_tracker_machine (bars : List Bar) :
    tradesList bars = some (specTracker bars) :=
  tradesList_spec bars

/-- C2: at every row `i ≥ 1` the ENTRY flag holds iff BUYSIGNAL was false at
`i-1` and true at `i`, and the EXIT flag iff it was true at `i-1` and false
at `i`; at row 0 both flags are false whatever the signal there. -/
theorem claim_c2_entry_exit_flags (buy : List Bool) :
    (ENTRY buy 0 = false ∧ EXIT buy 0 = false) ∧
    ∀ i, 1 ≤ i → i < buy.length →
      ((ENTRY buy i = true ↔ (buy[i - 1]? = some false ∧ buy[i]? = some true)) ∧
       (EXIT buy i = true ↔ (buy[i - 1]? = some true ∧ buy[i]? = some false))) := by
  constructor
  · exact ⟨rfl, rfl⟩
  · intro i h1 h2
    have hne : ¬ (i = 0) := by omega
    have hi1 : i - 1 < buy.length := by omega
    have ha : buy[i - 1]? = some (buy[i - 1]) := List.getElem?_eq_getElem hi1
    have hb : buy[i]? = some (buy[i]) := List.getElem?_eq_getElem h2
    have hD : buy.getD i false = buy[i] := by
      rw [List.getD_eq_getElem?_getD, hb]; rfl
    constructor
    · rw [ENTRY, shiftBuy, if_neg hne, ha, hb, hD]
      cases buy[i - 1] <;> cases buy[i] <;> simp
    · rw [EXIT, shiftBuy, if_neg hne, ha, hb, hD]
      cases buy[i - 1] <;> cases buy[i] <;> simp

theorem claim_c2_witness :
    (1 : Nat) ≤ 1 ∧ 1 < [false, true].length ∧
      ((ENTRY [false, true] 1 = true ↔
          ([false, true][0]? = some false ∧ [false, true][1]? = some true)) ∧
       (EXIT [false, true] 1 = true ↔
          ([false, true][0]? = some true ∧ [false, true][1]? = some false))) :=
  ⟨le_refl 1, by decide,
    (claim_c2_entry_exit_flags [false, true]).2 1 (by decide) (by decide)⟩

/-- C5: BUYSIGNAL holds on a post-warm-up row exactly when EMA20 exceeds
EMA50 and RSI exceeds the fixed threshold 55; the rule is this per-row
function, applied to every bar. -/
theorem claim_c5_buysignal (r : IndicatorRow) :
    BUYSIGNAL r = true ↔ (r.ema20 > r.ema50 ∧ r.rsi > 55) := by
  simp [BUYSIGNAL]

/-- C6: the screen evaluates only the most recent indicator row: uptrend is
`ema20 > ema50`, priceAboveEma20 is `close > ema20`, rsiInBand is
`50 < rsi14 < 70` and passesScreen their conjunction; on close=105,
ema20=100, ema50=95, rsi=60 all four flags are true, and the same input with
rsi=75 fails the band and the screen. -/
theorem claim_c6_screen_rule :
    (∀ r : LastRow,
      (uptrend r = true ↔ r.ema20 > r.ema50) ∧
      (price_above_ema20 r = true ↔ r.close > r.ema20) ∧
      (rsi_ok r = true ↔ (50 < r.rsi14 ∧ r.rsi14 < 70)) ∧
      (passes_screen r = true ↔
        (uptrend r = true ∧ price_above_ema20 r = true ∧ rsi_ok r = true))) ∧
    (uptrend ⟨105, 100, 95, 60⟩ = true ∧
      price_above_ema20 ⟨105, 100, 95, 60⟩ = true ∧
      rsi_ok ⟨105, 100, 95, 60⟩ = true ∧
      passes_screen ⟨105, 100, 95, 60⟩ = true) ∧
    (rsi_ok ⟨105, 100, 95, 75⟩ = false ∧
      passes_screen ⟨105, 100, 95, 75⟩ = false) := by
  refine ⟨fun r => ⟨?_, ?_, ?_, ?_⟩, by decide, by decide⟩
  · simp [uptrend]
  · simp [price_above_ema20]
  · simp [rsi_ok]
  · simp [passes_screen, and_assoc]

/-- C7: the report of an empty trade list is the no-trades message; the
count, mean-return and sum-of-returns statistics appear exactly when the
list is non-empty.  A signal series that never turns true produces the
empty trade list. -/
theorem claim_c7_no_trades :
    (∀ ts : List Trade,
      (tradesReport ts = .noTrades ↔ ts = []) ∧
      (ts ≠ [] → tradesReport ts =
        .stats ts.length (listMean (ts.map Trade.returnPct))
          ((ts.map Trade.returnPct).sum))) ∧
    ∀ (buy : List Bool) (dates : List Nat) (closes : List Rat),
      (∀ x ∈ buy, x = false) →
      tradesList (signalBars buy dates closes) = some [] := by
  constructor
  · intro ts
    constructor
    · constructor
      · intro h
        by_contra hne
        rw [tradesReport, if_neg (by simpa using hne)] at h
        simp at h
      · intro h; subst h; rfl
    · intro hne
      rw [tradesReport, if_neg (by simpa using hne)]
  · intro buy dates closes hall
    have hflags := barsFrom_entryFlag_false buy dates closes none hall
    have hscan := specScan_no_entry (signalBars buy dates closes) hflags
    rw [tradesList_spec]
    have hres : specTracker (signalBars buy dates closes) = [] := by
      rw [specTracker_eq_flat _ (by rw [hscan]), hscan]
    rw [hres]

theorem claim_c7_witness :
    tradesReport [] = .noTrades ∧
      tradesReport [⟨0, 1, 10, 11, 10⟩] =
        .stats 1 (listMean [(10 : Rat)]) [(10 : Rat)].sum ∧
      tradesList (signalBars [false, false] [0, 1] [10, 11]) = some [] :=
  ⟨((claim_c7_no_trades.1 []).1).2 rfl,
    (claim_c7_no_trades.1 [⟨0, 1, 10, 11, 10⟩]).2 (by decide),
    claim_c7_no_trades.2 [false, false] [0, 1] [10, 11] (by decide)⟩

/-- C3 counterexample: with the signal series false, true (dates 0 < 1,
closes 10, 12) the entry fires on the last bar and the forced close happens
on that same bar, so the single generated trade has `entryDate = exitDate`,
refuting strictness. -/
theorem claim_c3_counterexample :
    tradesList (signalBars [false, true] [0, 1] [10, 12]) =
        some [⟨1, 1, 12, 12, 0⟩] ∧
      ((tradesList (signalBars [false, true] [0, 1] [10, 12])).getD []).all
        (fun t => decide (t.entryDate < t.exitDate)) = false := by
  constructor <;>
    norm_num [tradesList, signalBars, barsFrom, runLoop, loopStep, mkTrade]

/-- C3 (amended): in every trade list generated from a date-sorted bar
series, every trade has `entryDate ≤ exitDate`; equality happens exactly
when the entry fires on the last bar and the trade is force-closed there. -/
theorem claim_c3_entry_le_exit (bars : List Bar) (ts : List Trade)
    (hsorted : List.Pairwise (fun a b => a.date < b.date) bars)
    (hts : tradesList bars = some ts) :
    ∀ t ∈ ts, t.entryDate ≤ t.exitDate := by
  rw [tradesList_spec] at hts
  obtain rfl : specTracker bars = ts := Option.some.inj hts
  obtain ⟨hA, hB⟩ := specScan_entry_inv bars .Flat hsorted
    (by intro ed ep h; cases h)
  intro t ht
  cases hfin : (specScan TrackerState.Flat bars).1 with
  | Flat =>
      rw [specTracker_eq_flat bars hfin] at ht
      exact hA t ht
  | InTrade ed ep =>
      cases hlast : bars.getLast? with
      | none =>
          rw [List.getLast?_eq_none_iff] at hlast
          subst hlast
          simp at hfin
      | some lb =>
          rw [specTracker_eq_inTrade bars ed ep lb hfin hlast] at ht
          rcases List.mem_append.1 ht with hmem | hforced
          · exact hA t hmem
          · have htv : t = mkTrade ed ep lb.date lb.close := by simpa using hforced
            rcases hB ed ep hfin with heq | ⟨b, hbmem, hed⟩
            · cases heq
            · have : ed ≤ lb.date := by
                rw [hed]
                exact date_le_getLast bars hsorted lb hlast b hbmem
              simp [htv, mkTrade, this]

theorem claim_c3_witness :
    tradesList (signalBars [false, true, false] [0, 1, 2] [10, 12, 11]) =
        some [⟨1, 2, 12, 11, -25/3⟩] ∧
      (⟨1, 2, 12, 11, -25/3⟩ : Trade).entryDate ≤
        (⟨1, 2, 12, 11, -25/3⟩ : Trade).exitDate :=
  ⟨by norm_num [tradesList, signalBars, barsFrom, runLoop, loopStep, mkTrade],
    claim_c3_entry_le_exit (signalBars [false, true, false] [0, 1, 2] [10, 12, 11])
      [⟨1, 2, 12, 11, -25/3⟩] (by decide)
      (by norm_num [tradesList, signalBars, barsFrom, runLoop, loopStep, mkTrade])
      _ (List.mem_singleton_self _)⟩

/-- C4 counterexample: the signal series true, true ends with
buySignal = true, yet no false→true transition ever occurs, the tracker
never enters a trade, and the generated trade list is empty — not exactly
one trade closing at the last bar. -/
theorem claim_c4_counterexample :
    [true, true].getLast? = some true ∧
      tradesList (signalBars [true, true] [0, 1] [10, 12]) = some [] := by
  constructor <;> decide

/-- C4 (amended): for a signal series over a strictly increasing date index
whose last bar has buySignal = true and in which at least one bar has
buySignal = false, the tracker emits exactly one trade whose exitDate is the
last bar's date, and its exitPrice is the last bar's close. -/
theorem claim_c4_forced_exit (buy : List Bool) (dates : List Nat) (closes : List Rat)
    (hd : buy.length ≤ dates.length) (hc : buy.length ≤ closes.length)
    (hsorted : List.Pairwise (· < ·) dates)
    (hlast : buy.getLast? = some true) (hfalse : false ∈ buy)
    (ts : List Trade) (lb : Bar)
    (hts : tradesList (signalBars buy dates closes) = some ts)
    (hlb : (signalBars buy dates closes).getLast? = some lb) :
    (ts.filter (fun t => t.exitDate == lb.date)).map (fun t => t.exitPrice) =
      [lb.close] := by
  rw [tradesList_spec] at hts
  obtain rfl : specTracker (signalBars buy dates closes) = ts := Option.some.inj hts
  have hstate := scan_state_aux buy dates closes none false .Flat hd hc
    (by simp) (by simp) (by simp)
  have h1 : lastOr none buy = some true := by unfold lastOr; rw [hlast]
  have h2 : (false || buy.any fun x => !x) = true := by
    simp only [Bool.false_or, List.any_eq_true]
    exact ⟨false, hfalse, rfl⟩
  obtain ⟨ed, ep, hfin⟩ := hstate.2 ⟨h1, h2⟩
  have hfin' : (specScan .Flat (signalBars buy dates closes)).1 = .InTrade ed ep := hfin
  have hbsorted := barsFrom_sorted buy dates closes none hsorted
  rw [specTracker_eq_inTrade _ ed ep lb hfin' hlb]
  rw [List.filter_append, List.map_append]
  have hout : (specScan .Flat (signalBars buy dates closes)).2.filter
      (fun t => t.exitDate == lb.date) = [] := by
    rw [List.filter_eq_nil_iff]
    intro t ht hpt
    obtain ⟨b, hbmem, hbexit, hdate, _⟩ :=
      mem_specScan_out (signalBars buy dates closes) .Flat t ht
    have hteq : t.exitDate = lb.date := by simpa using hpt
    have hbd : b.date = lb.date := by rw [← hdate]; exact hteq
    have hbe : b = lb :=
      eq_getLast_of_date_eq (signalBars buy dates closes) hbsorted lb hlb b hbmem hbd
    have hlbex : lb.exitFlag = false :=
      barsFrom_getLast_exitFlag buy dates closes none hd hc hlast lb hlb
    rw [hbe, hlbex] at hbexit
    exact Bool.false_ne_true hbexit
  rw [hout]
  simp [mkTrade]

theorem claim_c4_witness :
    tradesList (signalBars [false, true, true] [0, 1, 2] [10, 12, 14]) =
        some [⟨1, 2, 12, 14, 50/3⟩] ∧
      ([(⟨1, 2, 12, 14, 50/3⟩ : Trade)].filter (fun t => t.exitDate == 2)).map
        (fun t => t.exitPrice) = [14] :=
  ⟨by norm_num [tradesList, signalBars, barsFrom, runLoop, loopStep, mkTrade],
    claim_c4_forced_exit [false, true, true] [0, 1, 2] [10, 12, 14]
      (by decide) (by decide) (by decide) (by decide) (by decide)
      [⟨1, 2, 12, 14, 50/3⟩] ⟨2, 14, false, false⟩
      (by norm_num [tradesList, signalBars, barsFrom, runLoop, loopStep, mkTrade])
      (by decide)⟩

theorem sum_const_of_all_eq :
    ∀ (xs : List Rat) (c : Rat), (∀ x ∈ xs, x = c) →
      xs.sum = c * (xs.length : Rat) := by
  intro xs
  induction xs with
  | nil => intro c _; simp
  | cons x t ih =>
      intro c hall
      have hx : x = c := hall x (List.mem_cons_self x t)
      have ht := ih c (fun y hy => hall y (List.mem_cons_of_mem x hy))
      rw [List.sum_cons, ht, hx, List.length_cons]
      push_cast
      ring

theorem listMean_const (xs : List Rat) (c : Rat) (hne : xs ≠ [])
    (hall : ∀ x ∈ xs, x = c) : listMean xs = c := by
  have hlen : (xs.length : Rat) ≠ 0 := by
    have h0 : xs.length ≠ 0 := by simpa [List.length_eq_zero] using hne
    exact_mod_cast Nat.cast_ne_zero.mpr h0
  rw [listMean, sum_const_of_all_eq xs c hall, mul_div_assoc,
    div_self hlen, mul_one]

theorem sampleVar_const (xs : List Rat) (c : Rat)
    (hall : ∀ x ∈ xs, x = c) : sampleVar xs = 0 := by
  cases hxs : xs with
  | nil => simp [sampleVar]
  | cons y t =>
      subst hxs
      have hmean := listMean_const (y :: t) c (by simp) hall
      have hzero : ∀ z ∈ (y :: t).map (fun x => (x - listMean (y :: t)) ^ 2), z = 0 := by
        intro z hz
        obtain ⟨x, hx, hxz⟩ := List.mem_map.1 hz
        rw [← hxz, hmean, hall x hx]
        ring
      rw [sampleVar, sum_const_of_all_eq _ 0 hzero, zero_mul, zero_div]

/-- C8: when the daily-return series has zero standard deviation (all
returns equal) the Sharpe field is the NaN sentinel — the guarded division
is never taken; when the standard deviation is a nonzero value, Sharpe is
`(mean daily return - daily risk-free rate) / stdev * sqrt(252)`. -/
theorem claim_c8_sharpe :
    (∀ (sq : Rat → Rat) (rets : List Rat) (c : Rat),
      sq 0 = 0 → (∀ x ∈ rets, x = c) → sharpe sq rets = none) ∧
    (∀ (sq : Rat → Rat) (rets : List Rat) (vol : Rat),
      dailyVolOpt sq rets = some vol → vol ≠ 0 →
      sharpe sq rets = some ((listMean rets - daily_rf) / vol * sq 252)) := by
  constructor
  · intro sq rets c hsq hall
    have hvar : sampleVar rets = 0 := sampleVar_const rets c hall
    unfold sharpe dailyVolOpt
    by_cases hlen : 2 ≤ rets.length
    · rw [if_pos hlen, hvar, hsq]
      norm_num
    · rw [if_neg hlen]
  · intro sq rets vol hvol hne
    unfold sharpe
    rw [hvol]
    simp [hne]

theorem claim_c8_witness :
    sharpe (fun x => x) [1, 1] = none ∧
      dailyVolOpt (fun x => x) [0, 1] = some (1/2) ∧
      sharpe (fun x => x) [0, 1] =
        some ((listMean [0, 1] - daily_rf) / (1/2) * 252) :=
  ⟨claim_c8_sharpe.1 (fun x => x) [1, 1] 1 rfl (by simp),
    by norm_num [dailyVolOpt, sampleVar, listMean],
    claim_c8_sharpe.2 (fun x => x) [0, 1] (1/2)
      (by norm_num [dailyVolOpt, sampleVar, listMean]) (by norm_num)⟩


theorem pctFrom_length :
    ∀ (prices : List (Option Rat)) (prev : Option Rat),
      (pctFrom prev prices).length = prices.length := by
  intro prices
  induction prices with
  | nil => intro prev; rfl
  | cons p rest ih => intro prev; simp [pctFrom, ih]

theorem cumprodFrom_length :
    ∀ (xs : List Rat) (acc : Rat), (cumprodFrom acc xs).length = xs.length := by
  intro xs
  induction xs with
  | nil => intro acc; rfl
  | cons x rest ih => intro acc; simp [cumprodFrom, ih]

theorem pctChange_head (p : Option Rat) (rest : List (Option Rat)) :
    (pctChange (p :: rest))[0]? = some none := by
  cases p <;> simp [pctChange, pctFrom, padVal, retOf]

/-- The filled return is exactly 0 at every date with a missing price. -/
theorem pctFrom_missing :
    ∀ (prices : List (Option Rat)) (prev : Option Rat),
      (∀ v : Rat, prev = some v → 0 < v) →
      (∀ v : Rat, some v ∈ prices → 0 < v) →
      ∀ i : Nat, prices[i]? = some none →
        (fillnaZero (pctFrom prev prices))[i]? = some (0 : Rat) := by
  intro prices
  induction prices with
  | nil => intro prev _ _ i h; simp at h
  | cons p rest ih =>
      intro prev hprev hmem i hi
      cases i with
      | zero =>
          have hp : p = none := by simpa using hi
          subst hp
          cases hprev' : prev with
          | none => simp [pctFrom, fillnaZero, padVal, retOf, hprev']
          | some a =>
              have ha : (0 : Rat) < a := hprev a hprev'
              have hdiv : a / a - 1 = 0 := by
                rw [div_self (ne_of_gt ha)]; ring
              simp [pctFrom, fillnaZero, padVal, retOf, hprev', hdiv]
      | succ j =>
          have hj : rest[j]? = some none := by simpa using hi
          have hmem' : ∀ v : Rat, some v ∈ rest → 0 < v :=
            fun v hv => hmem v (List.mem_cons_of_mem p hv)
          have hpad : ∀ v : Rat, padVal prev p = some v → 0 < v := by
            intro v hv
            cases p with
            | none => exact hprev v hv
            | some w =>
                have hw : w = v := by simpa [padVal] using hv
                rw [← hw]
                exact hmem w (List.mem_cons_self _ _)
          have := ih (padVal prev p) hpad hmem' j hj
          simpa [pctFrom, fillnaZero] using this

/-- At two consecutive dates with present prices the return is the plain
percentage change. -/
theorem pctFrom_adjacent :
    ∀ (prices : List (Option Rat)) (prev : Option Rat) (i : Nat) (a b : Rat),
      prices[i]? = some (some a) → prices[i + 1]? = some (some b) →
      (pctFrom prev prices)[i + 1]? = some (some (b / a - 1)) := by
  intro prices
  induction prices with
  | nil => intro prev i a b h _; simp at h
  | cons p rest ih =>
      intro prev i a b ha hb
      cases i with
      | zero =>
          have hp : p = some a := by simpa using ha
          subst hp
          have hb' : rest[0]? = some (some b) := by simpa using hb
          cases rest with
          | nil => simp at hb'
          | cons q rest' =>
              have hq : q = some b := by simpa using hb'
              subst hq
              simp [pctFrom, padVal, retOf]
      | succ j =>
          have ha' : rest[j]? = some (some a) := by simpa using ha
          have hb' : rest[j + 1]? = some (some b) := by simpa using hb
          have := ih (padVal prev p) j a b ha' hb'
          simpa [pctFrom] using this

theorem cumprodFrom_getElem_succ :
    ∀ (xs : List Rat) (acc : Rat) (i : Nat) (e x : Rat),
      (cumprodFrom acc xs)[i]? = some e → xs[i + 1]? = some x →
      (cumprodFrom acc xs)[i + 1]? = some (e * x) := by
  intro xs
  induction xs with
  | nil => intro acc i e x he _; simp [cumprodFrom] at he
  | cons y rest ih =>
      intro acc i e x he hx
      cases i with
      | zero =>
          have he' : acc * y = e := by simpa [cumprodFrom] using he
          have hx' : rest[0]? = some x := by simpa using hx
          cases rest with
          | nil => simp at hx'
          | cons z rest' =>
              have hz : z = x := by simpa using hx'
              subst hz
              simp [cumprodFrom, he']
      | succ j =>
          have he' : (cumprodFrom (acc * y) rest)[j]? = some e := by
            simpa [cumprodFrom] using he
          have hx' : rest[j + 1]? = some x := by simpa using hx
          have := ih (acc * y) j e x he' hx'
          simpa [cumprodFrom] using this

/-- C10: the per-symbol equity curve is the running cumulative product of
`1 + dailyReturn` over the full combined date index; the return used is
exactly 0 at the first row and at every date where the symbol has no price
(so the equity value does not move across such dates), it is the plain
percentage change where two consecutive prices are present, and the saved
equity column has one (non-missing) entry per date of the index. -/
theorem claim_c10_equity (prices : List (Option Rat))
    (hpos : ∀ v : Rat, some v ∈ prices → 0 < v) :
    (equityCurve prices).length = prices.length ∧
    (∀ p rest, prices = p :: rest →
      (fillnaZero (pctChange prices))[0]? = some (0 : Rat)) ∧
    (∀ i : Nat, prices[i]? = some none →
      (fillnaZero (pctChange prices))[i]? = some (0 : Rat)) ∧
    (∀ (i : Nat) (a b : Rat), prices[i]? = some (some a) →
      prices[i + 1]? = some (some b) →
      (fillnaZero (pctChange prices))[i + 1]? = some (b / a - 1)) ∧
    (∀ (i : Nat) (e : Rat), prices[i + 1]? = some none →
      (equityCurve prices)[i]? = some e →
      (equityCurve prices)[i + 1]? = some e) := by
  refine ⟨?_, ?_, ?_, ?_, ?_⟩
  · rw [equityCurve, cumprodFrom_length, List.length_map, fillnaZero,
      List.length_map, pctChange, pctFrom_length]
  · intro p rest hpr
    subst hpr
    have h0 := pctChange_head p rest
    rw [fillnaZero, List.getElem?_map, h0]
    rfl
  · intro i hi
    exact pctFrom_missing prices none (by intro v hv; cases hv) hpos i hi
  · intro i a b ha hb
    have hadj := pctFrom_adjacent prices none i a b ha hb
    rw [fillnaZero, List.getElem?_map, pctChange, hadj]
    rfl
  · intro i e hmiss he
    have hfill : (fillnaZero (pctChange prices))[i + 1]? = some (0 : Rat) :=
      pctFrom_missing prices none (by intro v hv; cases hv) hpos (i + 1) hmiss
    have hfac : ((fillnaZero (pctChange prices)).map (fun r => 1 + r))[i + 1]? =
        some (1 : Rat) := by
      rw [List.getElem?_map, hfill]
      norm_num
    have hstep := cumprodFrom_getElem_succ
      ((fillnaZero (pctChange prices)).map (fun r => 1 + r)) 1 i e 1 he hfac
    simpa [equityCurve] using hstep

theorem claim_c10_witness :
    (equityCurve [some 2, none, some 3, some 4]).length = 4 ∧
      (fillnaZero (pctChange [some 2, none, some 3, some 4]))[1]? =
        some (0 : Rat) ∧
      (fillnaZero (pctChange [some 2, none, some 3, some 4]))[3]? =
        some ((4 : Rat) / 3 - 1) ∧
      (equityCurve [some 2, none, some 3, some 4])[1]? = some (1 : Rat) := by
  have hpos : ∀ v : Rat, some v ∈ [some 2, none, some 3, some 4] → 0 < v := by
    intro v hv
    simp at hv
    rcases hv with rfl | rfl | rfl <;> norm_num
  have h := claim_c10_equity [some 2, none, some 3, some 4] hpos
  refine ⟨h.1, h.2.2.1 1 rfl, h.2.2.2.1 2 3 4 rfl rfl, ?_⟩
  refine h.2.2.2.2 0 1 rfl ?_
  norm_num [equityCurve, pctChange, pctFrom, padVal, retOf, fillnaZero,
    cumprodFrom]

theorem rsiOf_bounds (ag al : Rat) (hag : 0 ≤ ag) (hal : 0 ≤ al) :
    0 ≤ rsiOf ag al ∧ rsiOf ag al ≤ 100 := by
  unfold rsiOf
  by_cases h : al = 0
  · rw [if_pos h]
    norm_num
  · rw [if_neg h]
    have hal' : 0 < al := lt_of_le_of_ne hal (Ne.symm h)
    have hr : 0 ≤ ag / al := div_nonneg hag (le_of_lt hal')
    have h1 : (1 : Rat) ≤ 1 + ag / al := by linarith
    have hup : 100 / (1 + ag / al) ≤ 100 := div_le_self (by norm_num) h1
    have hlo : 0 ≤ 100 / (1 + ag / al) := div_nonneg (by norm_num) (by linarith)
    constructor <;> linarith

theorem wilderFrom_nonneg :
    ∀ (xs : List Rat) (n : Nat) (a : Rat), 1 ≤ n → 0 ≤ a →
      (∀ x ∈ xs, 0 ≤ x) → ∀ y ∈ wilderFrom n a xs, 0 ≤ y := by
  intro xs
  induction xs with
  | nil => intro n a _ _ _ y hy; simp [wilderFrom] at hy
  | cons x rest ih =>
      intro n a hn ha hall y hy
      have hx : 0 ≤ x := hall x (List.mem_cons_self x rest)
      have hn' : (1 : Rat) ≤ (n : Rat) := by exact_mod_cast hn
      have hstep : 0 ≤ (a * ((n : Rat) - 1) + x) / (n : Rat) :=
        div_nonneg (by nlinarith) (by linarith)
      rw [wilderFrom] at hy
      rcases List.mem_cons.1 hy with rfl | hmem
      · exact hstep
      · exact ih n _ hn hstep
          (fun z hz => hall z (List.mem_cons_of_mem x hz)) y hmem

theorem wilderAvgs_nonneg (n : Nat) (xs : List Rat)
    (hall : ∀ x ∈ xs, 0 ≤ x) : ∀ y ∈ wilderAvgs n xs, 0 ≤ y := by
  intro y hy
  unfold wilderAvgs at hy
  by_cases h : n ≠ 0 ∧ n ≤ xs.length
  · rw [if_pos h] at hy
    have hn : 1 ≤ n := Nat.one_le_iff_ne_zero.2 h.1
    have hsum : 0 ≤ (xs.take n).sum :=
      List.sum_nonneg (fun x hx => hall x (List.take_subset n xs hx))
    have hn' : (0 : Rat) ≤ (n : Rat) := by positivity
    have hseed : 0 ≤ (xs.take n).sum / (n : Rat) := div_nonneg hsum hn'
    rcases List.mem_cons.1 hy with rfl | hmem
    · exact hseed
    · exact wilderFrom_nonneg (xs.drop n) n _ hn hseed
        (fun z hz => hall z (List.drop_subset n xs hz)) y hmem
  · rw [if_neg h] at hy
    simp at hy

theorem zipWith_rsiOf_bounds :
    ∀ (l1 l2 : List Rat), (∀ a ∈ l1, 0 ≤ a) → (∀ b ∈ l2, 0 ≤ b) →
      ∀ v ∈ List.zipWith rsiOf l1 l2, 0 ≤ v ∧ v ≤ 100 := by
  intro l1
  induction l1 with
  | nil => intro l2 _ _ v hv; simp at hv
  | cons a t ih =>
      intro l2 h1 h2 v hv
      cases l2 with
      | nil => simp at hv
      | cons b u =>
          rw [List.zipWith_cons_cons] at hv
          rcases List.mem_cons.1 hv with rfl | hmem
          · exact rsiOf_bounds a b (h1 a (List.mem_cons_self a t))
              (h2 b (List.mem_cons_self b u))
          · exact ih u (fun z hz => h1 z (List.mem_cons_of_mem a hz))
              (fun z hz => h2 z (List.mem_cons_of_mem b hz)) v hmem

/-- C9: every RSI(14) value produced by the (spec-modelled) Wilder
computation — hence every value retained after warm-up filtering in either
script — lies in the closed interval `[0, 100]`. -/
theorem claim_c9_rsi_bounded (closes : List Rat) :
    ∀ v ∈ rsiSeq 14 closes, 0 ≤ v ∧ v ≤ 100 := by
  intro v hv
  unfold rsiSeq at hv
  have hg : ∀ x ∈ (diffs closes).map gainOf, 0 ≤ x := by
    intro x hx
    obtain ⟨d, _, hdx⟩ := List.mem_map.1 hx
    rw [← hdx]
    exact le_max_right d 0
  have hl : ∀ x ∈ (diffs closes).map lossOf, 0 ≤ x := by
    intro x hx
    obtain ⟨d, _, hdx⟩ := List.mem_map.1 hx
    rw [← hdx]
    exact le_max_right (-d) 0
  exact zipWith_rsiOf_bounds _ _
    (wilderAvgs_nonneg 14 _ hg) (wilderAvgs_nonneg 14 _ hl) v hv

theorem claim_c9_witness :
    (100 : Rat) ∈ rsiSeq 14 [0, 0, 0, 0, 0, 0, 0, 0, 0, 0, 0, 0, 0, 0, 0, 0] ∧
      0 ≤ (100 : Rat) ∧ (100 : Rat) ≤ 100 := by
  have hmem : (100 : Rat) ∈
      rsiSeq 14 [0, 0, 0, 0, 0, 0, 0, 0, 0, 0, 0, 0, 0, 0, 0, 0] := by
    norm_num [rsiSeq, wilderAvgs, wilderFrom, diffs, gainOf, lossOf, rsiOf]
  exact ⟨hmem, claim_c9_rsi_bounded _ 100 hmem⟩
